import Mathlib

/-!
Verification of the Apostrophe template module (template rendering, environment
and loader caching, insertions, and the virtual-node renderer) against its
natural-language specification.

JavaScript code is shallowly embedded: JS objects become association lists or
lookup functions, JS strings become Lean `String`s (operated on through their
character lists), and JS truthiness is made explicit.  Fallible JS code that
cannot throw on the modelled inputs is embedded as total functions.
-/

namespace ApostropheTemplate

/-- Modelled from the spec: `apos.util.escapeHtml` (outside src/) HTML-escapes a
string, replacing the HTML-significant characters with character entities. -/
def escapeHtml (s : String) : String :=
  String.join (s.toList.map (fun c =>
    if c = '&' then "&amp;"
    else if c = '<' then "&lt;"
    else if c = '>' then "&gt;"
    else if c = '"' then "&quot;"
    else if c = Char.ofNat 39 then "&#39;"
    else String.singleton c))

/-- JS truthiness of a possibly-undefined string (`undefined` and `""` falsy). -/
def truthyStr : Option String → Bool
  | none => false
  | some s => !s.isEmpty

/-! ## C1: view-folder resolution (`getViewFolders`) -/

/-- A module identity as the template module sees it: the stable `__meta.name`
and the `__meta.chain` ancestry (the base directory `dirname` of each class in
the chain, root class first, most derived class last). -/
structure TModule where
  name : String
  chain : List String
deriving DecidableEq

/-- The template-module options relevant to view resolution
(`options.viewsFolderFallback`) together with `apos.rootDir`. -/
structure TemplateConfig where
  viewsFolderFallback : Option String
  rootDir : String
deriving DecidableEq

/-- The project-wide fallback views directory:
`self.options.viewsFolderFallback || path.join(self.apos.rootDir, 'views')`
(`path.join` of the two segments concatenates them with `/`; the `||` default
honours JS truthiness, so an empty-string option also falls back). -/
def projectFallbackDir (cfg : TemplateConfig) : String :=
  if truthyStr cfg.viewsFolderFallback then cfg.viewsFolderFallback.getD ""
  else cfg.rootDir ++ "/views"

/-- `getViewFolders` (part_000:366-379): map the ancestry chain to
`entry.dirname + '/views'`, reverse in place ("Final class should win"), then
push the project-wide fallback directory. -/
def getViewFolders (cfg : TemplateConfig) (module : TModule) : List String :=
  let dirs := (module.chain.map (fun entry => entry ++ "/views")).reverse
  dirs ++ [projectFallbackDir cfg]

/-- C1: for every module with ancestry chain [A (root) … Z (most derived)],
`getViewFolders` computes [Z/views, …, A/views, project-fallback]: the chain is
reversed so the most-derived module's views directory is first, and the
project-wide fallback directory (`options.viewsFolderFallback`, or
`rootDir/views`) is always last. -/
theorem c1_getViewFolders_order (cfg : TemplateConfig) (m : TModule) :
    getViewFolders cfg m =
      (m.chain.reverse.map (fun dirname => dirname ++ "/views")) ++
        [projectFallbackDir cfg] ∧
    (getViewFolders cfg m).getLast? = some (projectFallbackDir cfg) := by
  constructor
  · simp [getViewFolders, List.map_reverse]
  · simp [getViewFolders]

/-! ## C7: refresh-flag stripping (`unrefreshed`) -/

/-- Boolean test that `t` is a leading segment of `l`. -/
def isPreB : List Char → List Char → Bool
  | [], _ => true
  | _ :: _, [] => false
  | a :: u, b :: l => a == b && isPreB u l

/-- Boolean test that `t` occurs contiguously somewhere inside `l`
(JS `String.prototype.includes`). -/
def hasSubB (t : List Char) : List Char → Bool
  | [] => t.isEmpty
  | c :: l => isPreB t (c :: l) || hasSubB t l

/-- JS `url.includes(t)`. -/
def strIncludes (s t : String) : Bool := hasSubB t.toList s.toList

/-- JS `url.endsWith(t)`. -/
def strEndsWith (s t : String) : Bool := isPreB t.toList.reverse s.toList.reverse

/-- JS `String.prototype.replace` with a plain-string pattern: replace the
first occurrence of `t` by `r`, or return the input unchanged. -/
def replFirstL (t r : List Char) : List Char → List Char
  | [] => []
  | c :: l =>
    if isPreB t (c :: l) then r ++ (c :: l).drop t.length
    else c :: replFirstL t r l

/-- String wrapper for `replFirstL`. -/
def strReplFirst (s t r : String) : String :=
  (replFirstL t.toList r.toList s.toList).asString

/-- `unrefreshed` (part_000:757-771): strip the `aposRefresh=1` refresh flag
from a page URL, handling the flag alone, first, last, or mid-query-string. -/
def unrefreshed (url : String) : String :=
  if !strIncludes url "aposRefresh=1" then url
  else if strEndsWith url "?aposRefresh=1" then
    strReplFirst url "?aposRefresh=1" ""
  else if strIncludes url "?aposRefresh=1" then
    strReplFirst url "?aposRefresh=1&" "?"
  else strReplFirst url "&aposRefresh=1" ""

/-- C7: on `/page?aposRefresh=1`, `/page?aposRefresh=1&x=2`,
`/page?x=2&aposRefresh=1` and `/page?x=2&aposRefresh=1&y=3` the stripped URLs
are `/page`, `/page?x=2`, `/page?x=2` and `/page?x=2&y=3`: the flag is removed
whether it appears alone, first, last or mid-query-string, without leaving a
dangling `&` or `?`. -/
theorem c7_unrefreshed_examples :
    unrefreshed "/page?aposRefresh=1" = "/page" ∧
    unrefreshed "/page?aposRefresh=1&x=2" = "/page?x=2" ∧
    unrefreshed "/page?x=2&aposRefresh=1" = "/page?x=2" ∧
    unrefreshed "/page?x=2&aposRefresh=1&y=3" = "/page?x=2&y=3" := by
  refine ⟨?_, ?_, ?_, ?_⟩ <;> decide

/-! ## C9: `safe` / `escapeIfNeeded` -/

/-- A JavaScript value reaching `escapeIfNeeded`: nullish, a plain string, a
number, a boolean, or a Nunjucks `SafeString` (modelled by its wrapped text). -/
inductive EscValue where
  | undef
  | null
  | plain (s : String)
  | num (n : Int)
  | boolean (b : Bool)
  | safeString (s : String)
deriving DecidableEq

/-- JS `toString` of a non-nullish value (`SafeString.toString` returns the
wrapped text). -/
def EscValue.jsToString : EscValue → String
  | .undef => "undefined"
  | .null => "null"
  | .plain s => s
  | .num n => toString n
  | .boolean b => if b then "true" else "false"
  | .safeString s => s

/-- `safe` (part_000:170-172): wrap a string as a Nunjucks `SafeString`. -/
def safe (s : String) : EscValue := .safeString s

/-- `escapeIfNeeded` (part_000:179-185): a value already marked safe passes
through unchanged; otherwise it is converted to a string (nullish as `''`),
HTML-escaped, and marked safe. -/
def escapeIfNeeded (v : EscValue) : EscValue :=
  match v with
  | .safeString s => .safeString s
  | .undef => safe (escapeHtml "")
  | .null => safe (escapeHtml "")
  | w => safe (escapeHtml w.jsToString)

/-- C9: `escapeIfNeeded` is idempotent, safe-marked strings pass through
unescaped (so no double-escaping occurs), every nullish input yields the safe
empty string, and other non-safe values are converted with `toString` and
HTML-escaped. -/
theorem c9_escapeIfNeeded_idempotent (v : EscValue) (s : String) (n : Int)
    (b : Bool) :
    escapeIfNeeded (escapeIfNeeded v) = escapeIfNeeded v ∧
    escapeIfNeeded (safe s) = safe s ∧
    escapeIfNeeded .undef = safe "" ∧
    escapeIfNeeded .null = safe "" ∧
    escapeIfNeeded (.plain s) = safe (escapeHtml s) ∧
    escapeIfNeeded (.num n) = safe (escapeHtml (toString n)) ∧
    escapeIfNeeded (.boolean b) =
      safe (escapeHtml (EscValue.jsToString (.boolean b))) := by
  refine ⟨?_, rfl, rfl, rfl, rfl, rfl, rfl⟩
  cases v <;> rfl

/-! ## JS string trimming (used by the virtual-node renderer) -/

/-- JS whitespace as trimmed by `String.prototype.trim`. -/
def isJsWs (c : Char) : Bool :=
  c == ' ' || c == '\t' || c == '\n' || c == '\r' || c == Char.ofNat 11 ||
  c == Char.ofNat 12 || c == Char.ofNat 0xa0 || c == ' ' ||
  c == ' ' || c == Char.ofNat 0xfeff

/-- Drop leading JS whitespace. -/
def trimStartL (l : List Char) : List Char := l.dropWhile isJsWs

/-- Drop trailing JS whitespace. -/
def trimEndL (l : List Char) : List Char := (l.reverse.dropWhile isJsWs).reverse

/-- JS `String.prototype.trim` on the character list. -/
def jsTrimL (l : List Char) : List Char := trimEndL (trimStartL l)

/-- JS `String.prototype.trim`. -/
def jsTrim (s : String) : String := ⟨jsTrimL s.data⟩

/-- JS `String.prototype.trimEnd`. -/
def jsTrimEnd (s : String) : String := ⟨trimEndL s.data⟩

theorem dropWhile_idem (p : Char → Bool) (l : List Char) :
    (l.dropWhile p).dropWhile p = l.dropWhile p := by
  induction l with
  | nil => rfl
  | cons c t ih =>
    by_cases h : p c
    · simp [List.dropWhile_cons, h, ih]
    · simp [List.dropWhile_cons, h]

theorem trimEndL_isPre (l : List Char) : ∃ w, trimEndL l ++ w = l := by
  obtain ⟨a, ha⟩ := List.dropWhile_suffix (l := l.reverse) isJsWs
  refine ⟨a.reverse, ?_⟩
  have : (a ++ l.reverse.dropWhile isJsWs).reverse = l.reverse.reverse := by
    rw [ha]
  simpa [trimEndL] using this

theorem head_not_of_dropWhile_eq_self (p : Char → Bool) (a : Char)
    (l : List Char) (h : (a :: l).dropWhile p = a :: l) : p a = false := by
  by_contra hc
  simp only [Bool.not_eq_false] at hc
  rw [List.dropWhile_cons, if_pos hc] at h
  have hlen := congrArg List.length h
  have hle := (List.dropWhile_sublist (l := l) p).length_le
  simp only [List.length_cons] at hlen
  omega

theorem dropWhile_eq_self_of_pre (p : Char → Bool) {l u : List Char}
    (h : l.dropWhile p = l) (hu : ∃ w, u ++ w = l) : u.dropWhile p = u := by
  cases u with
  | nil => rfl
  | cons a u2 =>
    obtain ⟨w, hw⟩ := hu
    have hl : l = a :: (u2 ++ w) := by rw [← hw]; rfl
    subst hl
    have ha := head_not_of_dropWhile_eq_self p a (u2 ++ w) h
    simp [List.dropWhile_cons, ha]

theorem jsTrimL_idem (l : List Char) : jsTrimL (jsTrimL l) = jsTrimL l := by
  unfold jsTrimL
  have h1 : trimStartL (trimStartL l) = trimStartL l := dropWhile_idem _ _
  have h2 : trimStartL (trimEndL (trimStartL l)) = trimEndL (trimStartL l) :=
    dropWhile_eq_self_of_pre isJsWs h1 (trimEndL_isPre _)
  have h3 : trimEndL (trimEndL (trimStartL l)) = trimEndL (trimStartL l) := by
    unfold trimEndL
    rw [List.reverse_reverse, dropWhile_idem]
  rw [h2, h3]

theorem jsTrim_idem (s : String) : jsTrim (jsTrim s) = jsTrim s :=
  congrArg String.mk (jsTrimL_idem s.data)

/-! ## C8 / C10: virtual-node renderer (`renderNodes`) -/

/-- An attribute value of a virtual node: boolean `true` renders as a bare
attribute, `false`/`null`/`undefined` omit the attribute, and any other value
renders escaped. -/
inductive AttrValue where
  | boolTrue
  | boolFalse
  | null
  | undef
  | str (s : String)
deriving DecidableEq

mutual
/-- A virtual node as `renderNodes` receives it: a JS object that may carry any
subset of the `text`, `comment`, `raw` and `name` properties (absent modelled
as `none`) plus optional `attrs` and `body`. -/
inductive VNode where
  | mk (text comment raw name : Option String)
       (attrs : Option (List (String × AttrValue)))
       (body : VBody)
/-- The `body` property: `undefined` (falsy) or an array of child nodes
(always truthy in JS, even when empty). -/
inductive VBody where
  | undef
  | arr (nodes : VNodeList)
/-- A JS array of virtual nodes. -/
inductive VNodeList where
  | nil
  | cons (head : VNode) (tail : VNodeList)
end

def VNodeList.append : VNodeList → VNodeList → VNodeList
  | .nil, l => l
  | .cons h t, l => .cons h (t.append l)

/-- `Array.isArray(node.body)`-style truthiness of the `body` property. -/
def VBody.isUndef : VBody → Bool
  | .undef => true
  | .arr _ => false

/-- Modelled from the spec and the `void-elements` npm package (outside src/):
the HTML void element names. -/
def voidElements : List String :=
  ["area", "base", "br", "col", "command", "embed", "hr", "img", "input",
   "keygen", "link", "meta", "param", "source", "track", "wbr"]

def isVoidElement (name : String) : Bool := voidElements.contains name

/-- Concatenation of a JS string array with `.join('')`. -/
def sjoin : List String → String
  | [] => ""
  | s :: t => s ++ sjoin t

/-- One attribute of a named node (part_000:1165-1176): `false`, `null` and
`undefined` values contribute nothing, `true` renders the bare escaped name,
anything else renders ` name="escaped value"`. -/
def renderAttr (kv : String × AttrValue) : String :=
  match kv.2 with
  | .boolFalse => ""
  | .null => ""
  | .undef => ""
  | .boolTrue => " " ++ escapeHtml kv.1
  | .str v => " " ++ escapeHtml kv.1 ++ "=\"" ++ escapeHtml v ++ "\""

mutual
/-- One node of `renderNodes` (part_000:1153-1193): a truthy `text` renders
escaped, a truthy `comment` renders as an HTML comment, a truthy `raw` renders
verbatim, a truthy `name` renders as an element (self-closed when void with no
body, otherwise wrapping its trimmed rendered body); a node with none of the
four shapes is logged and contributes the empty string (the embedding is a
total function: no code path of the source throws on any such node object). -/
def renderNode : VNode → String
  | .mk text comment raw name attrs body =>
    if truthyStr text then escapeHtml (text.getD "")
    else if truthyStr comment then
      "\n<!-- " ++ escapeHtml (comment.getD "") ++ " -->\n"
    else if truthyStr raw then raw.getD ""
    else if truthyStr name then
      let ename := escapeHtml (name.getD "")
      let attrsStr := jsTrimEnd (sjoin ((attrs.getD []).map renderAttr))
      if body.isUndef && isVoidElement ename then
        "<" ++ ename ++ attrsStr ++ " />"
      else
        let b := jsTrim (renderBody body)
        "<" ++ ename ++ attrsStr ++ ">" ++ b ++ "</" ++ ename ++ ">"
    else ""
/-- `node.body ? self.renderNodes(node.body) : ''` (the recursive call is the
full `renderNodes`, including its final trim). -/
def renderBody : VBody → String
  | .undef => ""
  | .arr l => jsTrim (sjoin (renderList l))
/-- `nodes.map(node => ...)` inside `renderNodes`. -/
def renderList : VNodeList → List String
  | .nil => []
  | .cons h t => renderNode h :: renderList t
end

/-- `renderNodes` (part_000:1145-1197) on a node array: map each node to its
HTML, join with `''`, and trim the result. -/
def renderNodes (nodes : VNodeList) : String := jsTrim (sjoin (renderList nodes))

/-- A malformed node: none of the four shape properties is truthy. -/
def isMalformed : VNode → Bool
  | .mk text comment raw name _ _ =>
    !truthyStr text && !truthyStr comment && !truthyStr raw && !truthyStr name

theorem renderList_append :
    ∀ a b : VNodeList, renderList (a.append b) = renderList a ++ renderList b
  | .nil, _ => rfl
  | .cons h t, b => by
    rw [VNodeList.append, renderList, renderList, renderList_append t b]
    rfl

theorem sjoin_append (xs ys : List String) :
    sjoin (xs ++ ys) = sjoin xs ++ sjoin ys := by
  induction xs with
  | nil => simp [sjoin]
  | cons s t ih => simp [sjoin, ih, String.append_assoc]

/-- C8: for every list of nodes and every malformed node in it (a node with
none of the four shapes text/comment/raw/name truthy), `renderNodes` does not
throw (the embedding is total on node objects): the malformed node contributes
the empty string, and the rendering of all sibling nodes is unaffected. -/
theorem c8_malformed_node_is_harmless (pre post : VNodeList) (n : VNode)
    (h : isMalformed n = true) :
    renderNode n = "" ∧
    renderNodes (pre.append (.cons n post)) = renderNodes (pre.append post) := by
  have hempty : renderNode n = "" := by
    obtain ⟨text, comment, raw, name, attrs, body⟩ := n
    simp only [isMalformed, Bool.and_eq_true, Bool.not_eq_true'] at h
    obtain ⟨⟨⟨h1, h2⟩, h3⟩, h4⟩ := h
    simp [renderNode, h1, h2, h3, h4]
  refine ⟨hempty, ?_⟩
  unfold renderNodes
  rw [renderList_append, renderList_append, renderList, hempty]
  congr 1
  rw [sjoin_append, sjoin_append, sjoin]
  simp

/-- C8 witness: a concrete malformed node between two text siblings. -/
theorem c8_malformed_node_is_harmless_witness :
    isMalformed (VNode.mk none none none none none .undef) = true ∧
    renderNode (VNode.mk none none none none none .undef) = "" ∧
    renderNodes
        ((VNodeList.cons (VNode.mk (some "a") none none none none .undef)
            .nil).append
          (.cons (VNode.mk none none none none none .undef)
            (.cons (VNode.mk (some "b") none none none none .undef) .nil))) =
      renderNodes
        ((VNodeList.cons (VNode.mk (some "a") none none none none .undef)
            .nil).append
          (.cons (VNode.mk (some "b") none none none none .undef) .nil)) :=
  ⟨by decide,
    c8_malformed_node_is_harmless
      (VNodeList.cons (VNode.mk (some "a") none none none none .undef) .nil)
      (VNodeList.cons (VNode.mk (some "b") none none none none .undef) .nil)
      (VNode.mk none none none none none .undef) (by decide)⟩

/-- C10 (implicit): `renderNodes` trims whitespace at output boundaries - the
result of every call is trimmed at both ends (a fixed point of JS `trim`), and
a named element's rendered body is trimmed before being wrapped in its
open/close tags, so a text child `" x "` as the sole child of a `div` emits
`<div>x</div>` with the boundary whitespace never emitted. -/
theorem c10_renderNodes_trims_boundaries (nodes : VNodeList) :
    jsTrim (renderNodes nodes) = renderNodes nodes ∧
    renderNodes
        (.cons (VNode.mk (some " x ") none none none none .undef) .nil) = "x" ∧
    renderNodes
        (.cons
          (VNode.mk none none none (some "div") none
            (.arr (.cons (VNode.mk (some " x ") none none none none .undef)
              .nil)))
          .nil) = "<div>x</div>" := by
  refine ⟨jsTrim_idem _, by decide, by decide⟩

/-! ## C4 / C5: insertion resolution (`getInjectedComponents`) -/

/-- The `when` member of an insertion's `conditions` object: absent, a single
string, or an array of strings (after in-place normalization). -/
inductive WhenValue where
  | undef
  | str (s : String)
  | arr (l : List String)
deriving DecidableEq

/-- JS truthiness of a `when` value: `undefined` and `""` are falsy, arrays are
always truthy (even when empty). -/
def truthyWhen : WhenValue → Bool
  | .undef => false
  | .str s => !s.isEmpty
  | .arr _ => true

/-- The `conditions` object of a registered insertion. -/
structure InjectConditions where
  when : WhenValue
  bundler : Option String
deriving DecidableEq

/-- One entry of `self.insertions[key]` as pushed by `insert`
(part_000:977-992): the component name and the optional conditions object
(`none` models a JS `undefined` conditions argument). -/
structure Insertion where
  component : String
  conditions : Option InjectConditions
deriving DecidableEq

/-- The state of `self.apos.asset` queried by the condition handlers and the
bundler check (external collaborator, read through its accessors). -/
structure AssetState where
  hasHMR : Bool
  devServer : Option String
  isDevMode : Bool
  isProductionMode : Bool
  hasBuildModule : Bool
  buildModuleAlias : String
deriving DecidableEq

/-- `val.split(':')[0]`. -/
def splitHead (s : String) : String := ⟨s.data.takeWhile (fun c => c != ':')⟩

/-- The second element of `val.split(':')` (`undefined` when there is no
colon). -/
def splitArg (s : String) : Option String :=
  match s.data.dropWhile (fun c => c != ':') with
  | [] => none
  | _ :: t => some ⟨t.takeWhile (fun c => c != ':')⟩

/-- `getInjectConditionHandlers` (part_000:1059-1075): the named condition
predicates `hmr`, `dev`, `prod`; an unknown name is logged and treated as
false. -/
def runConditionHandler (asset : AssetState) (fn : String)
    (arg : Option String) : Bool :=
  if fn = "hmr" then
    if truthyStr arg then asset.hasHMR && asset.devServer == arg
    else asset.hasHMR
  else if fn = "dev" then asset.isDevMode
  else if fn = "prod" then asset.isProductionMode
  else false

/-- The active bundler identity (part_000:1036-1038): the build module's alias
when one is registered, else the internal `webpack` bundler. -/
def currentBundler (asset : AssetState) : String :=
  if asset.hasBuildModule then asset.buildModuleAlias else "webpack"

/-- In-place normalization of a non-array `when` into an array
(part_000:1007-1009). -/
def normWhen : WhenValue → List String
  | .arr l => l
  | .str s => if !s.isEmpty then [s] else []
  | .undef => []

/-- The inclusion decision for one insertion entry after normalization
(part_000:1011-1048), in source order: both sides' `when` must match (by the
prefix of each entry value before `:`), an entry with a non-empty `when` list
is excluded when the call site has no phase tag, a truthy `bundler` must equal
the active bundler, and every `when` condition voter must agree. -/
def insertionDecision (asset : AssetState) (dataWhen : Option String)
    (when2 : List String) (bundler : Option String) (component : String) :
    Option String :=
  if truthyStr dataWhen && !((when2.map splitHead).contains (dataWhen.getD ""))
    then none
  else if !truthyStr dataWhen && !when2.isEmpty then none
  else if truthyStr bundler && currentBundler asset != bundler.getD "" then none
  else if !(when2.all fun val =>
      runConditionHandler asset (splitHead val) (splitArg val)) then none
  else some component

/-- Processing of one entry by the `forEach` of `getInjectedComponents`
(part_000:1000-1049).  Returns the pushed component (if any) together with the
entry as left in the registry: the destructuring default `conditions = ...`
makes a fresh object when the stored `conditions` is `undefined`, so the
in-place `when` normalization only persists on entries that carry a stored
conditions object. -/
def processInsertion (asset : AssetState) (dataWhen : Option String)
    (e : Insertion) : Option String × Insertion :=
  let conditions := e.conditions.getD ⟨.undef, none⟩
  if !truthyStr conditions.bundler && !truthyWhen conditions.when &&
      !truthyStr dataWhen then
    (some e.component, e)
  else
    let when2 := normWhen conditions.when
    let e2 : Insertion :=
      match e.conditions with
      | none => e
      | some _ => ⟨e.component, some ⟨.arr when2, conditions.bundler⟩⟩
    (insertionDecision asset dataWhen when2 conditions.bundler e.component, e2)

/-- `getInjectedComponents` (part_000:997-1052) on the entry list registered
for one key, with `dataWhen` the call site's `data.when` phase tag.  The first
component is the returned component list; the second is the registry entry
list for that key after the call (the in-place normalizations). -/
def getInjectedComponents (asset : AssetState) :
    List Insertion → Option String → List String × List Insertion
  | [], _ => ([], [])
  | e :: t, dataWhen =>
    let r := processInsertion asset dataWhen e
    let rest := getInjectedComponents asset t dataWhen
    ((match r.1 with | some c => [c] | none => []) ++ rest.1, r.2 :: rest.2)

/-- An entry registered with no conditions: no truthy `when` and no truthy
`bundler`. -/
def hasNoConditions (e : Insertion) : Bool :=
  match e.conditions with
  | none => true
  | some c => !truthyWhen c.when && !truthyStr c.bundler

theorem truthyStr_none : truthyStr none = false := rfl

theorem truthyWhen_undef : truthyWhen .undef = false := rfl

theorem truthyWhen_arr (l : List String) : truthyWhen (.arr l) = true := rfl

theorem normWhen_undef : normWhen .undef = [] := rfl

theorem normWhen_arr (l : List String) : normWhen (.arr l) = l := rfl

theorem getInjectedComponents_append (asset : AssetState)
    (a b : List Insertion) (dataWhen : Option String) :
    (getInjectedComponents asset (a ++ b) dataWhen).1 =
      (getInjectedComponents asset a dataWhen).1 ++
        (getInjectedComponents asset b dataWhen).1 := by
  induction a with
  | nil => simp [getInjectedComponents]
  | cons e t ih => simp [getInjectedComponents, ih]

theorem processInsertion_noConditions (asset : AssetState)
    (dataWhen : Option String) (e : Insertion)
    (h : hasNoConditions e = true) :
    (processInsertion asset dataWhen e).1 =
      if truthyStr dataWhen then none else some e.component := by
  obtain ⟨component, conditions⟩ := e
  cases conditions with
  | none =>
    cases hdw : truthyStr dataWhen <;>
      simp [processInsertion, insertionDecision, truthyStr_none,
        truthyWhen_undef, normWhen_undef, hdw]
  | some c =>
    obtain ⟨w, b⟩ := c
    simp only [hasNoConditions, Bool.and_eq_true, Bool.not_eq_true'] at h
    obtain ⟨hw, hb⟩ := h
    cases w with
    | undef =>
      cases hdw : truthyStr dataWhen <;>
        simp [processInsertion, insertionDecision, truthyWhen_undef,
          normWhen_undef, hdw, hb]
    | str s =>
      have hs : s.isEmpty = true := by
        simpa [truthyWhen] using hw
      cases hdw : truthyStr dataWhen <;>
        simp [processInsertion, insertionDecision, normWhen, hw, hdw, hb, hs]
    | arr l => simp [truthyWhen] at hw

/-- C4 counterexample: an entry registered with no conditions is *not*
included when the call site supplies a (truthy) phase tag: with the single
entry `component "m:c", conditions undefined` and `data.when = "hmr"`, the
resolved component list is empty. -/
theorem c4_counterexample :
    (getInjectedComponents ⟨false, none, false, false, false, "webpack"⟩
        [⟨"m:c", none⟩] (some "hmr")).1 = [] ∧
    "m:c" ∉ (getInjectedComponents ⟨false, none, false, false, false,
        "webpack"⟩ [⟨"m:c", none⟩] (some "hmr")).1 := by
  refine ⟨?_, ?_⟩ <;> decide

/-- C4 amended: an insertion entry registered with no conditions (no `when`
and no `bundler`) is included in the resolution of its key exactly when the
call site supplies no truthy phase tag (`data.when` absent or empty); when a
truthy phase tag is supplied the unconditional entry is excluded. -/
theorem c4_no_conditions_included_iff_no_phase_tag (asset : AssetState)
    (dataWhen : Option String) (pre post : List Insertion) (e : Insertion)
    (h : hasNoConditions e = true) :
    (getInjectedComponents asset (pre ++ e :: post) dataWhen).1 =
      (getInjectedComponents asset pre dataWhen).1 ++
        (if truthyStr dataWhen then [] else [e.component]) ++
        (getInjectedComponents asset post dataWhen).1 := by
  rw [getInjectedComponents_append]
  have hmid :
      (getInjectedComponents asset (e :: post) dataWhen).1 =
        (if truthyStr dataWhen then [] else [e.component]) ++
          (getInjectedComponents asset post dataWhen).1 := by
    have hfst := processInsertion_noConditions asset dataWhen e h
    cases hdw : truthyStr dataWhen <;>
      simp [getInjectedComponents, hfst, hdw]
  rw [hmid, List.append_assoc]

/-- C4 witness: with no phase tag, a concrete unconditioned entry resolves to
its component. -/
theorem c4_no_conditions_included_iff_no_phase_tag_witness :
    hasNoConditions ⟨"m:c", none⟩ = true ∧
    (getInjectedComponents ⟨false, none, false, false, false, "webpack"⟩
        ([] ++ ⟨"m:c", none⟩ :: []) none).1 =
      (getInjectedComponents ⟨false, none, false, false, false, "webpack"⟩
          [] none).1 ++
        (if truthyStr none then [] else ["m:c"]) ++
        (getInjectedComponents ⟨false, none, false, false, false, "webpack"⟩
            [] none).1 :=
  ⟨by decide,
    c4_no_conditions_included_iff_no_phase_tag
      ⟨false, none, false, false, false, "webpack"⟩ none [] []
      ⟨"m:c", none⟩ (by decide)⟩

theorem processInsertion_stable (asset : AssetState)
    (dataWhen : Option String) (e : Insertion) :
    processInsertion asset dataWhen (processInsertion asset dataWhen e).2 =
      ((processInsertion asset dataWhen e).1,
        (processInsertion asset dataWhen e).2) := by
  obtain ⟨component, conditions⟩ := e
  cases conditions with
  | none =>
    have hsnd :
        (processInsertion asset dataWhen ⟨component, none⟩).2 =
          ⟨component, none⟩ := by
      cases hdw : truthyStr dataWhen <;>
        simp [processInsertion, truthyStr_none, truthyWhen_undef, hdw]
    conv_lhs => rw [hsnd]
  | some c =>
    obtain ⟨w, b⟩ := c
    cases hb : truthyStr b <;> cases hw2 : truthyWhen w <;>
      cases hdw : truthyStr dataWhen <;>
      simp [processInsertion, truthyWhen_arr, normWhen_arr, hb, hw2, hdw]

/-- C5 counterexample: `getInjectedComponents` is *not* mutation-free: on the
single entry `component "m:c", conditions.when = "hmr"` with no call-site
phase tag, the call rewrites the stored entry's `when` to the array
`["hmr"]`. -/
theorem c5_counterexample :
    (getInjectedComponents ⟨false, none, false, false, false, "webpack"⟩
        [⟨"m:c", some ⟨.str "hmr", none⟩⟩] none).2 ≠
      [⟨"m:c", some ⟨.str "hmr", none⟩⟩] ∧
    (getInjectedComponents ⟨false, none, false, false, false, "webpack"⟩
        [⟨"m:c", some ⟨.str "hmr", none⟩⟩] none).2 =
      [⟨"m:c", some ⟨.arr ["hmr"], none⟩⟩] := by
  refine ⟨?_, ?_⟩ <;> decide

/-- C5 amended: resolving insertions is deterministic (the embedding is a pure
function of the registry state and call-site data), but it is not
mutation-free: it idempotently normalizes the `when` member of stored
conditions objects to an array.  Re-running it on the registry state it
produces, with the same call-site data, returns the same ordered component
list and leaves the state unchanged. -/
theorem c5_getInjectedComponents_idempotent (asset : AssetState)
    (entries : List Insertion) (dataWhen : Option String) :
    getInjectedComponents asset
        (getInjectedComponents asset entries dataWhen).2 dataWhen =
      getInjectedComponents asset entries dataWhen := by
  induction entries with
  | nil => rfl
  | cons e t ih =>
    show getInjectedComponents asset
        ((processInsertion asset dataWhen e).2 ::
          (getInjectedComponents asset t dataWhen).2) dataWhen = _
    rw [getInjectedComponents, processInsertion_stable, ih]
    rfl

/-! ## C3: render-data merge (`getRenderDataArgs`) -/

mutual
/-- A JSON-ish JavaScript value. -/
inductive JsValue where
  | undef
  | null
  | boolean (b : Bool)
  | num (n : Int)
  | str (s : String)
  | obj (fields : JsFields)
  | arr (elems : JsArray)
/-- The own enumerable fields of a JS object. -/
inductive JsFields where
  | nil
  | cons (key : String) (value : JsValue) (tail : JsFields)
/-- A JS array of values. -/
inductive JsArray where
  | nil
  | cons (head : JsValue) (tail : JsArray)
end

/-- JS truthiness. -/
def truthy : JsValue → Bool
  | .undef => false
  | .null => false
  | .boolean b => b
  | .num n => n != 0
  | .str s => !s.isEmpty
  | .obj _ => true
  | .arr _ => true

def JsFields.get : JsFields → String → JsValue
  | .nil, _ => .undef
  | .cons k v t, key => if k = key then v else t.get key

/-- JS property read on a non-nullish value (`undefined` on primitives and for
absent keys). -/
def jsGet (v : JsValue) (key : String) : JsValue :=
  match v with
  | .obj fs => fs.get key
  | _ => JsValue.undef

/-- The part of the JS `||` / `_.defaults` semantics that picks the first
operand unless it is `undefined`. -/
def orUndef (a b : JsValue) : JsValue :=
  match a with
  | .undef => b
  | v => v

/-- Pointwise semantics of one `_.defaults(merged, src)` call: a key of the
destination that resolves to `undefined` is filled from the source. -/
def jsDefaults (dst src : String → JsValue) : String → JsValue :=
  fun k => orUndef (dst k) (src k)

/-- The request fields read by `getRenderDataArgs`: `req.data` (attached data
object, possibly absent), `req.user` and `req.locale`. -/
structure RenderReq where
  data : Option (String → JsValue)
  user : JsValue
  locale : JsValue

/-- The module fields read by `getRenderDataArgs`: its optional static
`templateData`. -/
structure RenderModule where
  templateData : Option (String → JsValue)

/-- `(req.user && req.user._permissions) || ` the empty object
(part_000:334). -/
def reqPermissions (req : RenderReq) : JsValue :=
  if truthy req.user then
    let p := jsGet req.user "_permissions"
    if truthy p then p else .obj .nil
  else .obj .nil

/-- The request-derived defaults object `user: req.user, permissions: ...`
of part_000:332-335, as a lookup function. -/
def renderDefaults (req : RenderReq) (k : String) : JsValue :=
  if k = "user" then req.user
  else if k = "permissions" then reqPermissions req
  else JsValue.undef

/-- A missing object argument contributes no keys. -/
def objOrEmpty (o : Option (String → JsValue)) : String → JsValue :=
  fun k => match o with
    | some f => f k
    | none => JsValue.undef

/-- `getRenderDataArgs` (part_000:322-343): start from an empty `merged`
object, `_.defaults` in order with the truthy `data` argument, the truthy
`req.data`, the `user`/`permissions` request defaults and the truthy
`module.templateData`, then set `merged.locale = merged.locale ||
req.locale`. -/
def getRenderDataArgs (req : RenderReq) (data : Option (String → JsValue))
    (module : RenderModule) : String → JsValue :=
  let merged0 : String → JsValue := fun _ => .undef
  let merged1 :=
    match data with
    | some d => jsDefaults merged0 d
    | none => merged0
  let merged2 :=
    match req.data with
    | some rd => jsDefaults merged1 rd
    | none => merged1
  let merged3 := jsDefaults merged2 (renderDefaults req)
  let merged4 :=
    match module.templateData with
    | some td => jsDefaults merged3 td
    | none => merged3
  fun k =>
    if k = "locale" then
      let l := merged4 "locale"
      if truthy l then l else req.locale
    else merged4 k

/-- First non-`undefined` value of a priority list (highest priority first):
the merge shape the (amended) specification describes. -/
def jsFirstDefined : List JsValue → JsValue
  | [] => .undef
  | v :: t =>
    match v with
    | .undef => jsFirstDefined t
    | w => w

theorem jsFirstDefined_nil : jsFirstDefined [] = .undef := rfl

theorem jsFirstDefined_cons (v : JsValue) (t : List JsValue) :
    jsFirstDefined (v :: t) = orUndef v (jsFirstDefined t) := by
  cases v <;> rfl

theorem orUndef_undef_left (b : JsValue) : orUndef .undef b = b := rfl

theorem orUndef_undef_right (a : JsValue) : orUndef a .undef = a := by
  cases a <;> rfl

theorem orUndef_assoc (a b c : JsValue) :
    orUndef (orUndef a b) c = orUndef a (orUndef b c) := by
  cases a
  case undef => rfl
  all_goals cases b <;> rfl

/-- C3 counterexample: with `req.user = "alice"` and the explicit `data`
argument supplying `user: "bob"`, the merged context carries `"bob"`, not the
request-derived default, so the request-derived defaults are *not* the
highest-priority source. -/
theorem c3_counterexample :
    getRenderDataArgs ⟨none, .str "alice", .str "en"⟩
        (some fun k => if k = "user" then .str "bob" else .undef)
        ⟨none⟩ "user" = JsValue.str "bob" ∧
    getRenderDataArgs ⟨none, .str "alice", .str "en"⟩
        (some fun k => if k = "user" then .str "bob" else .undef)
        ⟨none⟩ "user" ≠
      (⟨none, .str "alice", .str "en"⟩ : RenderReq).user := by
  have h1 :
      getRenderDataArgs ⟨none, .str "alice", .str "en"⟩
        (some fun k => if k = "user" then .str "bob" else .undef)
        ⟨none⟩ "user" = JsValue.str "bob" := rfl
  refine ⟨h1, ?_⟩
  rw [h1]
  intro heq
  injection heq with h2
  exact absurd h2 (by decide)

/-- C3 amended: the merged render context resolves each key to the first
source that defines it in *decreasing* priority: the explicit `data` argument
(highest), then `req.data`, then the request-derived `user`/`permissions`
defaults, then the module's static `templateData` (lowest); `locale` is the
merged value when truthy, falling back to `req.locale`. -/
theorem c3_merge_priority_order (req : RenderReq)
    (data : Option (String → JsValue)) (module : RenderModule) (k : String)
    (hk : k ≠ "locale") :
    getRenderDataArgs req data module k =
      jsFirstDefined [objOrEmpty data k, objOrEmpty req.data k,
        renderDefaults req k, objOrEmpty module.templateData k] ∧
    getRenderDataArgs req data module "locale" =
      (if truthy (jsFirstDefined [objOrEmpty data "locale",
          objOrEmpty req.data "locale", renderDefaults req "locale",
          objOrEmpty module.templateData "locale"]) then
        jsFirstDefined [objOrEmpty data "locale",
          objOrEmpty req.data "locale", renderDefaults req "locale",
          objOrEmpty module.templateData "locale"]
      else req.locale) := by
  obtain ⟨rdata, user, locale⟩ := req
  obtain ⟨td⟩ := module
  constructor
  · cases data <;> cases rdata <;> cases td <;>
      simp [getRenderDataArgs, jsDefaults, objOrEmpty, hk,
        jsFirstDefined_cons, jsFirstDefined_nil, orUndef_assoc,
        orUndef_undef_left, orUndef_undef_right]
  · cases data <;> cases rdata <;> cases td <;>
      simp [getRenderDataArgs, jsDefaults, objOrEmpty,
        jsFirstDefined_cons, jsFirstDefined_nil, orUndef_assoc,
        orUndef_undef_left, orUndef_undef_right]

/-- C3 witness: the amended priority order evaluated at the counterexample
input and key `user`. -/
theorem c3_merge_priority_order_witness :
    ("user" : String) ≠ "locale" ∧
    (getRenderDataArgs ⟨none, .str "alice", .str "en"⟩
        (some fun k => if k = "user" then .str "bob" else .undef)
        ⟨none⟩ "user" =
      jsFirstDefined [objOrEmpty
          (some fun k => if k = "user" then .str "bob" else .undef) "user",
        objOrEmpty none "user",
        renderDefaults ⟨none, .str "alice", .str "en"⟩ "user",
        objOrEmpty none "user"] ∧
    getRenderDataArgs ⟨none, .str "alice", .str "en"⟩
        (some fun k => if k = "user" then .str "bob" else .undef)
        ⟨none⟩ "locale" =
      (if truthy (jsFirstDefined [objOrEmpty
          (some fun k => if k = "user" then .str "bob" else .undef) "locale",
        objOrEmpty none "locale",
        renderDefaults ⟨none, .str "alice", .str "en"⟩ "locale",
        objOrEmpty none "locale"]) then
        jsFirstDefined [objOrEmpty
            (some fun k => if k = "user" then .str "bob" else .undef) "locale",
          objOrEmpty none "locale",
          renderDefaults ⟨none, .str "alice", .str "en"⟩ "locale",
          objOrEmpty none "locale"]
      else (⟨none, .str "alice", .str "en"⟩ : RenderReq).locale)) :=
  ⟨by decide,
    c3_merge_priority_order ⟨none, .str "alice", .str "en"⟩
      (some fun k => if k = "user" then .str "bob" else .undef)
      ⟨none⟩ "user" (by decide)⟩

/-! ## C2: environment and loader caches (`getEnv`, `getLoader`)

The loader cache key is `JSON.stringify` of the record with the `moduleName`
and `dirs` members (part_000:484-487).  The stringification of these plain
strings is embedded with the `"`/`\` escaping of JSON (`JSON.stringify` also
escapes ASCII control characters; both encodings are injective, which is the
only property the cache facts depend on, and the embedded one is exact on
names and paths free of control characters).  A loader or environment
*instance* is modelled by the counter value allocated at its creation: two
equal ids denote the identical cached instance, two different ids denote
distinct instances. -/

/-- JSON escaping of one character inside a string literal. -/
def escJsonChar (c : Char) : List Char :=
  if c = '\\' ∨ c = '"' then ['\\', c] else [c]

/-- JSON escaping of a string body. -/
def escJson : List Char → List Char
  | [] => []
  | c :: t => escJsonChar c ++ escJson t

/-- A JSON string literal: quote, escaped body, quote. -/
def encStrChars (l : List Char) : List Char := '"' :: (escJson l ++ ['"'])

/-- The comma-separated bodies of a JSON array of strings. -/
def encListBody : List (List Char) → List Char
  | [] => []
  | d :: t =>
    encStrChars d ++
      (match t with
        | [] => []
        | _ :: _ => ',' :: encListBody t)

def keyPre1 : List Char := "\x7b\"moduleName\":".toList

def keyPre2 : List Char := ",\"dirs\":[".toList

def keyPre3 : List Char := "]\x7d".toList

/-- `JSON.stringify` of the cache-key record, character-wise. -/
def loaderKeyChars (m : List Char) (ds : List (List Char)) : List Char :=
  keyPre1 ++ (encStrChars m ++ (keyPre2 ++ (encListBody ds ++ keyPre3)))

/-- The loader cache key of part_000:484-487. -/
def loaderKey (moduleName : String) (dirs : List String) : String :=
  ⟨loaderKeyChars moduleName.data (dirs.map String.data)⟩

theorem escJson_quote_inj :
    ∀ (a b r₁ r₂ : List Char),
      escJson a ++ '"' :: r₁ = escJson b ++ '"' :: r₂ → a = b ∧ r₁ = r₂ := by
  intro a
  induction a with
  | nil =>
    intro b r₁ r₂ h
    cases b with
    | nil => simpa [escJson] using h
    | cons d u =>
      by_cases hd : d = '\\' ∨ d = '"'
      · simp only [escJson, escJsonChar, if_pos hd, List.cons_append,
          List.nil_append] at h
        obtain ⟨h1, -⟩ := List.cons.inj h
        exact absurd h1 (by decide)
      · simp only [escJson, escJsonChar, if_neg hd, List.cons_append,
          List.nil_append] at h
        obtain ⟨h1, -⟩ := List.cons.inj h
        exact absurd (Or.inr h1.symm) hd
  | cons c t ih =>
    intro b r₁ r₂ h
    cases b with
    | nil =>
      by_cases hc : c = '\\' ∨ c = '"'
      · simp only [escJson, escJsonChar, if_pos hc, List.cons_append,
          List.nil_append] at h
        obtain ⟨h1, -⟩ := List.cons.inj h
        exact absurd h1.symm (by decide)
      · simp only [escJson, escJsonChar, if_neg hc, List.cons_append,
          List.nil_append] at h
        obtain ⟨h1, -⟩ := List.cons.inj h
        exact absurd (Or.inr h1) hc
    | cons d u =>
      by_cases hc : c = '\\' ∨ c = '"' <;> by_cases hd : d = '\\' ∨ d = '"'
      · simp only [escJson, escJsonChar, if_pos hc, if_pos hd,
          List.cons_append, List.nil_append] at h
        obtain ⟨-, h2⟩ := List.cons.inj h
        obtain ⟨h3, h4⟩ := List.cons.inj h2
        obtain ⟨he, hr⟩ := ih u r₁ r₂ h4
        exact ⟨by rw [h3, he], hr⟩
      · simp only [escJson, escJsonChar, if_pos hc, if_neg hd,
          List.cons_append, List.nil_append] at h
        obtain ⟨h1, -⟩ := List.cons.inj h
        exact absurd (Or.inl h1.symm) hd
      · simp only [escJson, escJsonChar, if_neg hc, if_pos hd,
          List.cons_append, List.nil_append] at h
        obtain ⟨h1, -⟩ := List.cons.inj h
        exact absurd (Or.inl h1) hc
      · simp only [escJson, escJsonChar, if_neg hc, if_neg hd,
          List.cons_append, List.nil_append] at h
        obtain ⟨h1, h2⟩ := List.cons.inj h
        obtain ⟨he, hr⟩ := ih u r₁ r₂ h2
        exact ⟨by rw [h1, he], hr⟩

theorem encStrChars_det {a b X Y : List Char}
    (h : encStrChars a ++ X = encStrChars b ++ Y) : a = b ∧ X = Y := by
  simp only [encStrChars, List.cons_append, List.append_assoc,
    List.singleton_append] at h
  obtain ⟨-, h2⟩ := List.cons.inj h
  exact escJson_quote_inj a b X Y h2

theorem encListBody_inj :
    ∀ (a b : List (List Char)) (r₁ r₂ : List Char),
      encListBody a ++ ']' :: r₁ = encListBody b ++ ']' :: r₂ →
        a = b ∧ r₁ = r₂ := by
  intro a
  induction a with
  | nil =>
    intro b r₁ r₂ h
    cases b with
    | nil => simpa [encListBody] using h
    | cons e u =>
      simp only [encListBody, List.nil_append, List.append_assoc] at h
      simp only [encStrChars, List.cons_append] at h
      obtain ⟨h1, -⟩ := List.cons.inj h
      exact absurd h1 (by decide)
  | cons d t ih =>
    intro b r₁ r₂ h
    cases b with
    | nil =>
      simp only [encListBody, List.nil_append, List.append_assoc] at h
      simp only [encStrChars, List.cons_append] at h
      obtain ⟨h1, -⟩ := List.cons.inj h
      exact absurd h1 (by decide)
    | cons e u =>
      simp only [encListBody, List.append_assoc] at h
      obtain ⟨hde, h2⟩ := encStrChars_det h
      subst hde
      cases t with
      | nil =>
        cases u with
        | nil =>
          simp only [List.nil_append] at h2
          obtain ⟨-, hr⟩ := List.cons.inj h2
          exact ⟨rfl, hr⟩
        | cons w u2 =>
          simp only [List.nil_append, List.cons_append] at h2
          obtain ⟨h3, -⟩ := List.cons.inj h2
          exact absurd h3 (by decide)
      | cons w t2 =>
        cases u with
        | nil =>
          simp only [List.nil_append, List.cons_append] at h2
          obtain ⟨h3, -⟩ := List.cons.inj h2
          exact absurd h3 (by decide)
        | cons w2 u2 =>
          simp only [List.cons_append] at h2
          obtain ⟨-, h3⟩ := List.cons.inj h2
          obtain ⟨hb, hr⟩ := ih (w2 :: u2) r₁ r₂ h3
          exact ⟨by rw [hb], hr⟩

theorem keyPre3_eq : keyPre3 = ']' :: [Char.ofNat 125] := rfl

theorem loaderKeyChars_inj {m₁ m₂ : List Char} {d₁ d₂ : List (List Char)}
    (h : loaderKeyChars m₁ d₁ = loaderKeyChars m₂ d₂) :
    m₁ = m₂ ∧ d₁ = d₂ := by
  unfold loaderKeyChars at h
  have h1 := List.append_cancel_left h
  obtain ⟨hm, h2⟩ := encStrChars_det h1
  have h3 := List.append_cancel_left h2
  rw [keyPre3_eq] at h3
  obtain ⟨hd, -⟩ := encListBody_inj d₁ d₂ _ _ h3
  exact ⟨hm, hd⟩

theorem loaderKey_inj {m₁ m₂ : String} {d₁ d₂ : List String}
    (h : loaderKey m₁ d₁ = loaderKey m₂ d₂) : m₁ = m₂ ∧ d₁ = d₂ := by
  have hchars : loaderKeyChars m₁.data (d₁.map String.data) =
      loaderKeyChars m₂.data (d₂.map String.data) :=
    congrArg String.data h
  obtain ⟨hm, hd⟩ := loaderKeyChars_inj hchars
  have hdata : Function.Injective String.data := by
    intro a b hab
    cases a
    cases b
    exact congrArg String.mk hab
  exact ⟨hdata hm, List.map_injective_iff.mpr hdata hd⟩

/-- An id-allocating cache: the template module's `self.loaders` /
`self.envs` objects, plus the creation counter that models instance
identity. -/
structure IdCache where
  entries : List (String × Nat)
  next : Nat
deriving DecidableEq

/-- JS object property lookup (`self.loaders[key]`). -/
def lookupId (k : String) : List (String × Nat) → Option Nat
  | [] => none
  | (k2, v) :: t => if k2 = k then some v else lookupId k t

/-- `if (!self.loaders[key]) self.loaders[key] = newInstance()` followed by
`return self.loaders[key]`. -/
def IdCache.get (c : IdCache) (k : String) : Nat × IdCache :=
  match lookupId k c.entries with
  | some v => (v, c)
  | none => (c.next, ⟨(k, c.next) :: c.entries, c.next + 1⟩)

/-- Well-formedness of a cache reachable from the empty one: every stored id
was allocated (is below the counter) and distinct keys hold distinct ids. -/
def IdCache.WF (c : IdCache) : Prop :=
  (∀ p ∈ c.entries, p.2 < c.next) ∧
  (∀ p ∈ c.entries, ∀ q ∈ c.entries, p.2 = q.2 → p.1 = q.1)

instance (c : IdCache) : Decidable c.WF := by
  unfold IdCache.WF
  infer_instance

theorem lookupId_mem {k : String} {v : Nat} :
    ∀ {l : List (String × Nat)}, lookupId k l = some v → (k, v) ∈ l := by
  intro l
  induction l with
  | nil => intro h; simp [lookupId] at h
  | cons p t ih =>
    obtain ⟨k2, v2⟩ := p
    intro h
    by_cases hk : k2 = k
    · rw [lookupId, if_pos hk] at h
      obtain ⟨hv⟩ := h
      subst hk
      exact List.mem_cons_self _ _
    · rw [lookupId, if_neg hk] at h
      exact List.mem_cons_of_mem _ (ih h)

theorem IdCache.get_eq_found {c : IdCache} {k : String} {v : Nat}
    (h : lookupId k c.entries = some v) : c.get k = (v, c) := by
  unfold IdCache.get
  rw [h]

theorem IdCache.get_eq_new {c : IdCache} {k : String}
    (h : lookupId k c.entries = none) :
    c.get k = (c.next, ⟨(k, c.next) :: c.entries, c.next + 1⟩) := by
  unfold IdCache.get
  rw [h]

theorem IdCache.get_mem (c : IdCache) (k : String) :
    (k, (c.get k).1) ∈ (c.get k).2.entries := by
  cases h : lookupId k c.entries with
  | some v => rw [IdCache.get_eq_found h]; exact lookupId_mem h
  | none => rw [IdCache.get_eq_new h]; exact List.mem_cons_self _ _

theorem IdCache.get_WF {c : IdCache} (h : c.WF) (k : String) :
    (c.get k).2.WF := by
  cases hl : lookupId k c.entries with
  | some v => rw [IdCache.get_eq_found hl]; exact h
  | none =>
    rw [IdCache.get_eq_new hl]
    obtain ⟨hbound, hinj⟩ := h
    constructor
    · intro p hp
      rcases List.mem_cons.1 hp with hp1 | hp2
      · rw [hp1]
        exact Nat.lt_succ_self _
      · exact Nat.lt_trans (hbound p hp2) (Nat.lt_succ_self _)
    · intro p hp q hq hpq
      rcases List.mem_cons.1 hp with hp1 | hp2 <;>
        rcases List.mem_cons.1 hq with hq1 | hq2
      · rw [hp1, hq1]
      · exact absurd hpq
          (by rw [hp1]; exact Nat.ne_of_gt (hbound q hq2))
      · exact absurd hpq (by rw [hq1]; exact Nat.ne_of_lt (hbound p hp2))
      · exact hinj p hp2 q hq2 hpq

theorem IdCache.get_stable (c : IdCache) (k : String) :
    (c.get k).2.get k = ((c.get k).1, (c.get k).2) := by
  cases hl : lookupId k c.entries with
  | some v =>
    rw [IdCache.get_eq_found hl]
    exact IdCache.get_eq_found hl
  | none =>
    rw [IdCache.get_eq_new hl]
    have h2 : lookupId k
        ((⟨(k, c.next) :: c.entries, c.next + 1⟩ : IdCache).entries) =
        some c.next := by
      simp [lookupId]
    exact IdCache.get_eq_found h2

theorem IdCache.get_fresh_ne {c : IdCache} (h : c.WF) {k₁ k₂ : String}
    (hk : k₁ ≠ k₂) : ((c.get k₁).2.get k₂).1 ≠ (c.get k₁).1 := by
  have hmem : (k₁, (c.get k₁).1) ∈ (c.get k₁).2.entries := c.get_mem k₁
  have hwf : (c.get k₁).2.WF := IdCache.get_WF h k₁
  obtain ⟨hbound, hinj⟩ := hwf
  cases hl : lookupId k₂ (c.get k₁).2.entries with
  | some v =>
    rw [IdCache.get_eq_found hl]
    intro hv
    have hmem2 : (k₂, v) ∈ (c.get k₁).2.entries := lookupId_mem hl
    exact hk (hinj _ hmem _ hmem2 hv.symm)
  | none =>
    rw [IdCache.get_eq_new hl]
    exact Nat.ne_of_gt (hbound _ hmem)

/-- The cross-request state of the template module's two caches
(`self.envs`, `self.loaders`), with instance identity modelled by allocation
counters. -/
structure TemplateState where
  envs : IdCache
  loaders : IdCache
deriving DecidableEq

def TemplateState.WF (st : TemplateState) : Prop := st.envs.WF ∧ st.loaders.WF

instance (st : TemplateState) : Decidable st.WF := by
  unfold TemplateState.WF
  infer_instance

/-- `getLoader` (part_000:483-495): look the `JSON.stringify` key up in
`self.loaders`, creating and caching a fresh loader on a miss. -/
def getLoader (moduleName : String) (dirs : List String)
    (st : TemplateState) : Nat × TemplateState :=
  let r := st.loaders.get (loaderKey moduleName dirs)
  (r.1, { st with loaders := r.2 })

/-- `getEnv` (part_000:355-364) with `newEnv` (part_000:394-468): one cached
environment per module *name*; on a miss, `newEnv` first obtains the (cached)
loader for the module's view folders and then constructs a fresh environment
(the installed filters, tags and globals do not affect cache identity and are
not modelled). -/
def getEnv (cfg : TemplateConfig) (st : TemplateState) (module : TModule) :
    Nat × TemplateState :=
  match lookupId module.name st.envs.entries with
  | some e => (e, st)
  | none =>
    let r := getLoader module.name (getViewFolders cfg module) st
    let e := r.2.envs.get module.name
    (e.1, { r.2 with envs := e.2 })

theorem getEnv_envs (cfg : TemplateConfig) (st : TemplateState)
    (m : TModule) :
    (getEnv cfg st m).1 = (st.envs.get m.name).1 ∧
    (getEnv cfg st m).2.envs = (st.envs.get m.name).2 := by
  unfold getEnv getLoader IdCache.get
  cases hl : lookupId m.name st.envs.entries <;> simp [hl]

/-- C2 counterexample: two distinct modules (`"a"` and `"b"`) with identical
view-directory lists do *not* share a loader: the cache key includes the
module name, so starting from empty caches the second module receives a
freshly created loader instance, not the first module's. -/
theorem c2_counterexample :
    (getLoader "b" ["/x/views"]
        (getLoader "a" ["/x/views"] ⟨⟨[], 0⟩, ⟨[], 0⟩⟩).2).1 ≠
      (getLoader "a" ["/x/views"] ⟨⟨[], 0⟩, ⟨[], 0⟩⟩).1 := by
  decide

/-- C2 amended: the loader cache is keyed by the pair (module name, directory
list), so for one module two `getLoader` calls with the same directory list
return the identical cached loader instance while a different directory list
produces a different cache entry (a distinct instance); two *distinct* modules
never share a loader instance, even with identical directory lists; and the
environment cache, keyed by module name alone, never gives two distinct
modules the same environment. -/
theorem c2_cache_keying (cfg : TemplateConfig) (st : TemplateState)
    (m₁ m₂ : TModule) (mn : String) (d d₁ d₂ : List String)
    (hWF : st.WF) (hm : m₁.name ≠ m₂.name) (hd : d₁ ≠ d₂) :
    getLoader mn d (getLoader mn d st).2 =
      ((getLoader mn d st).1, (getLoader mn d st).2) ∧
    (getLoader mn d₂ (getLoader mn d₁ st).2).1 ≠ (getLoader mn d₁ st).1 ∧
    (getLoader m₂.name d (getLoader m₁.name d st).2).1 ≠
      (getLoader m₁.name d st).1 ∧
    (getEnv cfg (getEnv cfg st m₁).2 m₂).1 ≠ (getEnv cfg st m₁).1 := by
  refine ⟨?_, ?_, ?_, ?_⟩
  · simp only [getLoader, IdCache.get_stable]
  · have hkey : loaderKey mn d₁ ≠ loaderKey mn d₂ := by
      intro hk
      exact hd (loaderKey_inj hk).2
    exact IdCache.get_fresh_ne hWF.2 hkey
  · have hkey : loaderKey m₁.name d ≠ loaderKey m₂.name d := by
      intro hk
      exact hm (loaderKey_inj hk).1
    exact IdCache.get_fresh_ne hWF.2 hkey
  · obtain ⟨h11, h12⟩ := getEnv_envs cfg st m₁
    obtain ⟨h21, h22⟩ := getEnv_envs cfg (getEnv cfg st m₁).2 m₂
    rw [h21, h12, h11]
    exact IdCache.get_fresh_ne hWF.1 hm

/-- C2 witness: the cache behaviour at concrete modules and directory lists,
all hypotheses discharged at the empty caches. -/
theorem c2_cache_keying_witness :
    (⟨⟨[], 0⟩, ⟨[], 0⟩⟩ : TemplateState).WF ∧
    (⟨"a", []⟩ : TModule).name ≠ (⟨"b", []⟩ : TModule).name ∧
    (["/d1/views"] : List String) ≠ ["/d2/views"] ∧
    (getLoader "m" ["/d1/views"]
        (getLoader "m" ["/d1/views"] ⟨⟨[], 0⟩, ⟨[], 0⟩⟩).2 =
      ((getLoader "m" ["/d1/views"] ⟨⟨[], 0⟩, ⟨[], 0⟩⟩).1,
        (getLoader "m" ["/d1/views"] ⟨⟨[], 0⟩, ⟨[], 0⟩⟩).2) ∧
    (getLoader "m" ["/d2/views"]
        (getLoader "m" ["/d1/views"] ⟨⟨[], 0⟩, ⟨[], 0⟩⟩).2).1 ≠
      (getLoader "m" ["/d1/views"] ⟨⟨[], 0⟩, ⟨[], 0⟩⟩).1 ∧
    (getLoader (⟨"b", []⟩ : TModule).name ["/d1/views"]
        (getLoader (⟨"a", []⟩ : TModule).name ["/d1/views"]
          ⟨⟨[], 0⟩, ⟨[], 0⟩⟩).2).1 ≠
      (getLoader (⟨"a", []⟩ : TModule).name ["/d1/views"]
        ⟨⟨[], 0⟩, ⟨[], 0⟩⟩).1 ∧
    (getEnv ⟨none, "/proj"⟩
        (getEnv ⟨none, "/proj"⟩ ⟨⟨[], 0⟩, ⟨[], 0⟩⟩ ⟨"a", []⟩).2
        ⟨"b", []⟩).1 ≠
      (getEnv ⟨none, "/proj"⟩ ⟨⟨[], 0⟩, ⟨[], 0⟩⟩ ⟨"a", []⟩).1) :=
  ⟨by decide, by decide, by decide,
    c2_cache_keying ⟨none, "/proj"⟩ ⟨⟨[], 0⟩, ⟨[], 0⟩⟩ ⟨"a", []⟩ ⟨"b", []⟩
      "m" ["/d1/views"] ["/d1/views"] ["/d2/views"]
      (by decide) (by decide) (by decide)⟩

/-! ## C6: script-safe JSON (`jsonForHtml`)

`String.prototype.replace` with a `g`-flagged pattern is embedded as a fueled
left-to-right scan (`replAll`); the fuel is the input length, which the scan
never exhausts for a non-empty pattern.  The `i` flag of `/<\/script>/gi` is
ASCII case folding (without the `u` flag, JS regex canonicalization does not
fold non-ASCII characters onto ASCII ones). -/

theorem sub_cons_cases {α : Type} {u l : List α} {c : α}
    (h : u <:+: c :: l) : u <+: c :: l ∨ u <:+: l := by
  obtain ⟨x, y, hxy⟩ := h
  cases x with
  | nil => exact Or.inl ⟨y, by simpa using hxy⟩
  | cons c2 x2 =>
    simp only [List.cons_append, List.cons.injEq] at hxy
    exact Or.inr ⟨x2, y, hxy.2⟩

theorem pre_append_cases {α : Type} :
    ∀ {a : List α} {u b : List α}, u <+: a ++ b →
      u <+: a ∨ ∃ w, u = a ++ w ∧ w <+: b := by
  intro a
  induction a with
  | nil => intro u b h; exact Or.inr ⟨u, rfl, h⟩
  | cons c a2 ih =>
    intro u b h
    cases u with
    | nil => exact Or.inl ⟨c :: a2, rfl⟩
    | cons d u2 =>
      obtain ⟨w, hw⟩ := h
      simp only [List.cons_append, List.cons.injEq] at hw
      obtain ⟨hdc, hw2⟩ := hw
      rcases ih ⟨w, hw2⟩ with h1 | ⟨w2, hw3, hw4⟩
      · obtain ⟨w3, hw5⟩ := h1
        exact Or.inl ⟨w3, by rw [hdc]; simp [List.cons_append, hw5]⟩
      · exact Or.inr ⟨w2, by rw [hdc, hw3]; rfl, hw4⟩

theorem sub_append_cases {α : Type} :
    ∀ {a : List α} {u b : List α}, u <:+: a ++ b →
      u <:+: a ∨ u <:+: b ∨
        ∃ u₁ u₂, u₁ ++ u₂ = u ∧ u₁ ≠ [] ∧ u₂ ≠ [] ∧ u₁ <:+ a ∧ u₂ <+: b := by
  intro a
  induction a with
  | nil => intro u b h; exact Or.inr (Or.inl (by simpa using h))
  | cons c a2 ih =>
    intro u b h
    rcases sub_cons_cases (by simpa using h) with h1 | h2
    · rcases pre_append_cases (a := c :: a2) h1 with h3 | ⟨w, hw1, hw2⟩
      · obtain ⟨w3, hw3⟩ := h3
        exact Or.inl ⟨[], w3, by simpa using hw3⟩
      · cases w with
        | nil =>
          refine Or.inl ⟨[], [], ?_⟩
          simp only [List.append_nil] at hw1
          simp [hw1.symm]
        | cons e w2 =>
          refine Or.inr (Or.inr ⟨c :: a2, e :: w2, hw1.symm, by simp,
            by simp, List.suffix_rfl, hw2⟩)
    · rcases ih h2 with h3 | h4 | ⟨u₁, u₂, h5, h6, h7, h8, h9⟩
      · obtain ⟨x, y, hxy⟩ := h3
        exact Or.inl ⟨c :: x, y, by simp [hxy]⟩
      · exact Or.inr (Or.inl h4)
      · refine Or.inr (Or.inr ⟨u₁, u₂, h5, h6, h7, ?_, h9⟩)
        obtain ⟨w, hw⟩ := h8
        exact ⟨c :: w, by simp [hw]⟩

theorem sub_of_sub_suffix {α : Type} {u v l : List α} (h1 : u <:+: v)
    (h2 : v <:+ l) : u <:+: l := by
  obtain ⟨x, y, hxy⟩ := h1
  obtain ⟨w, hw⟩ := h2
  exact ⟨w ++ x, y, by rw [← hw, ← hxy]; simp⟩

theorem sub_of_sub_cons {α : Type} {u l : List α} {c : α} (h : u <:+: l) :
    u <:+: c :: l := by
  obtain ⟨x, y, hxy⟩ := h
  exact ⟨c :: x, y, by simp [hxy]⟩

/-- ASCII lower-casing: the case folding performed by a non-`u` `i`-flagged
JS regex on an ASCII pattern. -/
def lowerAscii (c : Char) : Char :=
  if 'A' ≤ c ∧ c ≤ 'Z' then Char.ofNat (c.toNat + 32) else c

/-- Case-sensitive character comparison. -/
def eqvExact (a b : Char) : Bool := a == b

/-- ASCII case-insensitive character comparison (the `i` regex flag). -/
def eqvCI (a b : Char) : Bool := lowerAscii a == lowerAscii b

/-- Try to consume the pattern `t` from the head of the input, returning the
rest of the input on success. -/
def matchPre (eqv : Char → Char → Bool) : List Char → List Char →
    Option (List Char)
  | [], s => some s
  | _ :: _, [] => none
  | a :: ta, b :: tb => if eqv a b then matchPre eqv ta tb else none

theorem matchPre_length {eqv : Char → Char → Bool} :
    ∀ {t s r : List Char}, matchPre eqv t s = some r →
      r.length + t.length = s.length := by
  intro t
  induction t with
  | nil => intro s r h; obtain ⟨h2⟩ := h; simp
  | cons a ta ih =>
    intro s r h
    cases s with
    | nil => exact absurd h (by simp [matchPre])
    | cons b tb =>
      rw [matchPre] at h
      by_cases he : eqv a b
      · rw [if_pos he] at h
        have := ih h
        simp only [List.length_cons]
        omega
      · rw [if_neg he] at h
        exact absurd h (by simp)

theorem matchPre_suffix {eqv : Char → Char → Bool} :
    ∀ {t s r : List Char}, matchPre eqv t s = some r → r <:+ s := by
  intro t
  induction t with
  | nil => intro s r h; obtain ⟨h2⟩ := h; exact List.suffix_rfl
  | cons a ta ih =>
    intro s r h
    cases s with
    | nil => exact absurd h (by simp [matchPre])
    | cons b tb =>
      rw [matchPre] at h
      by_cases he : eqv a b
      · rw [if_pos he] at h
        exact (ih h).trans (List.suffix_cons b tb)
      · rw [if_neg he] at h
        exact absurd h (by simp)

theorem matchPre_of_pre {eqv : Char → Char → Bool}
    (hrefl : ∀ c, eqv c c = true) :
    ∀ {t s : List Char}, t <+: s → ∃ r, matchPre eqv t s = some r := by
  intro t
  induction t with
  | nil => intro s _; exact ⟨s, rfl⟩
  | cons a ta ih =>
    intro s h
    obtain ⟨w, hw⟩ := h
    cases s with
    | nil => simp at hw
    | cons b tb =>
      simp only [List.cons_append, List.cons.injEq] at hw
      obtain ⟨hab, hw2⟩ := hw
      obtain ⟨r, hr⟩ := ih ⟨w, hw2⟩
      refine ⟨r, ?_⟩
      rw [matchPre, hab, if_pos (hrefl b), hr]

/-- JS `String.prototype.replace` with a global pattern: scan left to right,
replacing each non-overlapping occurrence and continuing after it.  `fuel`
bounds the recursion and is never exhausted when it is at least the input
length and the pattern is non-empty. -/
def replAll (eqv : Char → Char → Bool) (t r : List Char) :
    Nat → List Char → List Char
  | _, [] => []
  | 0, s => s
  | fuel + 1, c :: s =>
    match matchPre eqv t (c :: s) with
    | some rest => r ++ replAll eqv t r fuel rest
    | none => c :: replAll eqv t r fuel s

theorem replAll_chars {eqv : Char → Char → Bool} {t r : List Char} :
    ∀ (fuel : Nat) (s : List Char) (c : Char),
      c ∈ replAll eqv t r fuel s → c ∈ s ∨ c ∈ r := by
  intro fuel
  induction fuel with
  | zero =>
    intro s c h
    cases s with
    | nil => simp [replAll] at h
    | cons d s2 => exact Or.inl h
  | succ f ih =>
    intro s c h
    cases s with
    | nil => simp [replAll] at h
    | cons d s2 =>
      rw [replAll] at h
      cases hm : matchPre eqv t (d :: s2) with
      | some rest =>
        rw [hm] at h
        rcases List.mem_append.1 h with h1 | h2
        · exact Or.inr h1
        · rcases ih rest c h2 with h3 | h4
          · obtain ⟨w, hw⟩ := matchPre_suffix hm
            exact Or.inl (by rw [← hw]; exact List.mem_append_right w h3)
          · exact Or.inr h4
      | none =>
        rw [hm] at h
        rcases List.mem_cons.1 h with h1 | h2
        · exact Or.inl (by rw [h1]; exact List.mem_cons_self d s2)
        · rcases ih s2 c h2 with h3 | h4
          · exact Or.inl (List.mem_cons_of_mem d h3)
          · exact Or.inr h4

theorem replAll_single_char {x : Char} {r : List Char} (hxr : x ∉ r) :
    ∀ (fuel : Nat) (s : List Char), s.length ≤ fuel →
      x ∉ replAll eqvExact [x] r fuel s := by
  intro fuel
  induction fuel with
  | zero =>
    intro s hlen
    have : s = [] := List.eq_nil_of_length_eq_zero (Nat.le_zero.1 hlen)
    subst this
    simp [replAll]
  | succ f ih =>
    intro s hlen
    cases s with
    | nil => simp [replAll]
    | cons c s2 =>
      rw [replAll]
      by_cases hc : x = c
      · have hm : matchPre eqvExact [x] (c :: s2) = some s2 := by
          simp [matchPre, eqvExact, hc]
        rw [hm]
        intro hmem
        rcases List.mem_append.1 hmem with h1 | h2
        · exact hxr h1
        · exact ih s2 (by simpa using hlen) h2
      · have hm : matchPre eqvExact [x] (c :: s2) = none := by
          simp [matchPre, eqvExact, hc]
        rw [hm]
        intro hmem
        rcases List.mem_cons.1 hmem with h1 | h2
        · exact hc h1
        · exact ih s2 (by simpa using hlen) h2

theorem replAll_pre_reflect {eqv : Char → Char → Bool} {t : List Char}
    {hdr : Char} {rt : List Char} :
    ∀ (fuel : Nat) (s v : List Char), s.length ≤ fuel → hdr ∉ v →
      v <+: replAll eqv t (hdr :: rt) fuel s → v <+: s := by
  intro fuel
  induction fuel with
  | zero =>
    intro s v hlen _ h
    have : s = [] := List.eq_nil_of_length_eq_zero (Nat.le_zero.1 hlen)
    subst this
    simpa [replAll] using h
  | succ f ih =>
    intro s v hlen hv h
    cases s with
    | nil => simpa [replAll] using h
    | cons c s2 =>
      rw [replAll] at h
      cases v with
      | nil => exact ⟨c :: s2, rfl⟩
      | cons d v2 =>
        cases hm : matchPre eqv t (c :: s2) with
        | some rest =>
          rw [hm] at h
          obtain ⟨w, hw⟩ := h
          simp only [List.cons_append, List.cons.injEq] at hw
          exact absurd (hw.1 ▸ List.mem_cons_self d v2) hv
        | none =>
          rw [hm] at h
          obtain ⟨w, hw⟩ := h
          simp only [List.cons_append, List.cons.injEq] at hw
          obtain ⟨hdc, hw2⟩ := hw
          have hv2 : hdr ∉ v2 := fun hx => hv (List.mem_cons_of_mem d hx)
          obtain ⟨w2, hw3⟩ := ih s2 v2 (by simpa using hlen) hv2 ⟨w, hw2⟩
          exact ⟨w2, by rw [hdc]; simp [List.cons_append, hw3]⟩

theorem replAll_no_target {eqv : Char → Char → Bool} {u : List Char}
    {hdr : Char} {rt : List Char}
    (hrefl : ∀ c, eqv c c = true) (hu : u ≠ [])
    (hnr : ¬ u <:+: hdr :: rt)
    (hspan : ∀ w ∈ (hdr :: rt).tails, w = [] ∨ ¬ w <+: u)
    (hhd : hdr ∉ u.drop 1) :
    ∀ (fuel : Nat) (s : List Char), s.length ≤ fuel →
      ¬ u <:+: replAll eqv u (hdr :: rt) fuel s := by
  intro fuel
  induction fuel with
  | zero =>
    intro s hlen h
    have : s = [] := List.eq_nil_of_length_eq_zero (Nat.le_zero.1 hlen)
    subst this
    rw [replAll] at h
    obtain ⟨x, y, hxy⟩ := h
    have := congrArg List.length hxy
    simp at this
    exact hu this.2.1
  | succ f ih =>
    intro s hlen h
    cases s with
    | nil =>
      rw [replAll] at h
      obtain ⟨x, y, hxy⟩ := h
      have := congrArg List.length hxy
      simp at this
      exact hu this.2.1
    | cons c s2 =>
      rw [replAll] at h
      cases hm : matchPre eqv u (c :: s2) with
      | some rest =>
        rw [hm] at h
        have hrlen : rest.length ≤ f := by
          have h1 := matchPre_length hm
          have h2 : 1 ≤ u.length := by
            cases u with
            | nil => exact absurd rfl hu
            | cons a b => simp
          simp only [List.length_cons] at h1 hlen
          omega
        rcases sub_append_cases h with h1 | h2 | ⟨u₁, u₂, h3, h4, h5, h6, h7⟩
        · exact hnr h1
        · exact ih rest hrlen h2
        · rcases hspan u₁ ((List.mem_tails _ _).2 h6) with h8 | h9
          · exact h4 h8
          · exact h9 ⟨u₂, h3⟩
      | none =>
        rw [hm] at h
        rcases sub_cons_cases h with h1 | h2
        · cases u with
          | nil => exact absurd rfl hu
          | cons d u2 =>
            obtain ⟨w, hw⟩ := h1
            simp only [List.cons_append, List.cons.injEq] at hw
            obtain ⟨hdc, hw2⟩ := hw
            have hpre : u2 <+: s2 :=
              replAll_pre_reflect f s2 u2 (by simpa using hlen)
                (by simpa using hhd) ⟨w, hw2⟩
            have hlit : d :: u2 <+: c :: s2 := by
              obtain ⟨w2, hw3⟩ := hpre
              exact ⟨w2, by rw [hdc]; simp [List.cons_append, hw3]⟩
            obtain ⟨r2, hr2⟩ := matchPre_of_pre hrefl hlit
            rw [hm] at hr2
            exact absurd hr2 (by simp)
        · exact ih s2 (by simpa using hlen) h2

theorem replAll_preserve {eqv : Char → Char → Bool} {t u : List Char}
    {hdr : Char} {rt : List Char}
    (ht : t ≠ [])
    (hnr : ¬ u <:+: hdr :: rt)
    (hspan : ∀ w ∈ (hdr :: rt).tails, w = [] ∨ ¬ w <+: u)
    (hhd : hdr ∉ u.drop 1) :
    ∀ (fuel : Nat) (s : List Char), s.length ≤ fuel → ¬ u <:+: s →
      ¬ u <:+: replAll eqv t (hdr :: rt) fuel s := by
  intro fuel
  induction fuel with
  | zero =>
    intro s hlen hns h
    have : s = [] := List.eq_nil_of_length_eq_zero (Nat.le_zero.1 hlen)
    subst this
    rw [replAll] at h
    exact hns h
  | succ f ih =>
    intro s hlen hns h
    cases s with
    | nil =>
      rw [replAll] at h
      exact hns h
    | cons c s2 =>
      rw [replAll] at h
      have hns2 : ¬ u <:+: s2 := fun hx => hns (sub_of_sub_cons hx)
      cases hm : matchPre eqv t (c :: s2) with
      | some rest =>
        rw [hm] at h
        have hrlen : rest.length ≤ f := by
          have h1 := matchPre_length hm
          have h2 : 1 ≤ t.length := by
            cases t with
            | nil => exact absurd rfl ht
            | cons a b => simp
          simp only [List.length_cons] at h1 hlen
          omega
        have hnrest : ¬ u <:+: rest := fun hx =>
          hns (sub_of_sub_suffix hx (matchPre_suffix hm))
        rcases sub_append_cases h with h1 | h2 | ⟨u₁, u₂, h3, h4, h5, h6, h7⟩
        · exact hnr h1
        · exact ih rest hrlen hnrest h2
        · rcases hspan u₁ ((List.mem_tails _ _).2 h6) with h8 | h9
          · exact h4 h8
          · exact h9 ⟨u₂, h3⟩
      | none =>
        rw [hm] at h
        rcases sub_cons_cases h with h1 | h2
        · cases u with
          | nil => exact hns ⟨[], c :: s2, rfl⟩
          | cons d u2 =>
            obtain ⟨w, hw⟩ := h1
            simp only [List.cons_append, List.cons.injEq] at hw
            obtain ⟨hdc, hw2⟩ := hw
            have hpre : u2 <+: s2 :=
              replAll_pre_reflect f s2 u2 (by simpa using hlen)
                (by simpa using hhd) ⟨w, hw2⟩
            obtain ⟨w2, hw3⟩ := hpre
            exact hns ⟨[], w2, by rw [hdc]; simp [hw3]⟩
        · exact ih s2 (by simpa using hlen) hns2 h2

theorem replAll_no_target2 {eqv : Char → Char → Bool} {u r : List Char}
    (hrefl : ∀ c, eqv c c = true) (hu : u ≠ []) (hr : r ≠ [])
    (hnr : ¬ u <:+: r)
    (hspan : ∀ w ∈ r.tails, w = [] ∨ ¬ w <+: u)
    (hhd : ∀ a ∈ u.drop 1, r.head? ≠ some a) :
    ∀ (fuel : Nat) (s : List Char), s.length ≤ fuel →
      ¬ u <:+: replAll eqv u r fuel s := by
  cases r with
  | nil => exact absurd rfl hr
  | cons hdr rt =>
    exact replAll_no_target hrefl hu hnr hspan (fun hx => hhd hdr hx rfl)

theorem replAll_preserve2 {eqv : Char → Char → Bool} {t u r : List Char}
    (ht : t ≠ []) (hr : r ≠ [])
    (hnr : ¬ u <:+: r)
    (hspan : ∀ w ∈ r.tails, w = [] ∨ ¬ w <+: u)
    (hhd : ∀ a ∈ u.drop 1, r.head? ≠ some a) :
    ∀ (fuel : Nat) (s : List Char), s.length ≤ fuel → ¬ u <:+: s →
      ¬ u <:+: replAll eqv t r fuel s := by
  cases r with
  | nil => exact absurd rfl hr
  | cons hdr rt =>
    exact replAll_preserve ht hnr hspan (fun hx => hhd hdr hx rfl)

theorem replAll_single_char2 {x : Char} {t r : List Char} (ht : t = [x])
    (hxr : x ∉ r) :
    ∀ (fuel : Nat) (s : List Char), s.length ≤ fuel →
      x ∉ replAll eqvExact t r fuel s := by
  subst ht
  exact replAll_single_char hxr

/-- Comma separation inside stringified JSON objects and arrays. -/
def joinComma : List (List Char) → List Char
  | [] => []
  | [x] => x
  | x :: t => x ++ ',' :: joinComma t

mutual
/-- Modelled from the spec: `JSON.stringify` (a JS builtin), reusing the
string-literal encoding of the cache key.  Numbers are integral; `undefined`
is reachable only inside arrays, where `JSON.stringify` emits `null`. -/
def jsonStringify : JsValue → List Char
  | .undef => "null".toList
  | .null => "null".toList
  | .boolean b => if b then "true".toList else "false".toList
  | .num n => (toString n).toList
  | .str s => encStrChars s.data
  | .obj fs =>
    Char.ofNat 123 :: (joinComma (jsonFieldList fs) ++ [Char.ofNat 125])
  | .arr es => '[' :: (joinComma (jsonElemList es) ++ [']'])
/-- Object members: fields holding `undefined` are dropped. -/
def jsonFieldList : JsFields → List (List Char)
  | .nil => []
  | .cons k v t =>
    match v with
    | .undef => jsonFieldList t
    | w => (encStrChars k.data ++ ':' :: jsonStringify w) :: jsonFieldList t
/-- Array elements: `undefined` serializes as `null`. -/
def jsonElemList : JsArray → List (List Char)
  | .nil => []
  | .cons v t =>
    (match v with
      | .undef => "null".toList
      | w => jsonStringify w) :: jsonElemList t
end

/-- The global replacement of `<!--` by `<\!--` (part_000:247). -/
def replaceComments (l : List Char) : List Char :=
  replAll eqvExact "<!--".data "<\\!--".data l.length l

/-- The global ASCII-case-insensitive replacement of `</script>` by
`<\/script>` (part_000:248). -/
def replaceScriptClose (l : List Char) : List Char :=
  replAll eqvCI "</script>".data "<\\/script>".data l.length l

/-- The global replacement of the U+2028 line separator by the six-character
text `\u2028` (part_000:251). -/
def replaceU2028 (l : List Char) : List Char :=
  replAll eqvExact " ".data "\\u2028".data l.length l

/-- The global replacement of the U+2029 paragraph separator by the
six-character text `\u2029` (part_000:252). -/
def replaceU2029 (l : List Char) : List Char :=
  replAll eqvExact " ".data "\\u2029".data l.length l

/-- `jsonForHtml` (part_000:241-254): `undefined` serializes to `"null"`;
anything else is `JSON.stringify`ed and then the four escaping replacements
are applied in order. -/
def jsonForHtml (v : JsValue) : String :=
  match v with
  | .undef => "null"
  | w =>
    ⟨replaceU2029 (replaceU2028 (replaceScriptClose
      (replaceComments (jsonStringify w))))⟩

theorem replaceComments_no_comment (l : List Char) :
    ¬ ("<!--".data <:+: replaceComments l) := by
  unfold replaceComments
  exact replAll_no_target2 (fun c => by simp [eqvExact]) (by decide)
    (by decide) (by decide) (by decide) (by decide) l.length l (Nat.le_refl _)

theorem replaceScriptClose_no_script (l : List Char) :
    ¬ ("</script>".data <:+: replaceScriptClose l) := by
  unfold replaceScriptClose
  exact replAll_no_target2 (fun c => by simp [eqvCI]) (by decide)
    (by decide) (by decide) (by decide) (by decide) l.length l (Nat.le_refl _)

theorem replaceScriptClose_keeps_comment (l : List Char)
    (h : ¬ ("<!--".data <:+: l)) :
    ¬ ("<!--".data <:+: replaceScriptClose l) := by
  unfold replaceScriptClose
  exact replAll_preserve2 (by decide) (by decide) (by decide) (by decide)
    (by decide) l.length l (Nat.le_refl _) h

theorem replaceU2028_keeps_script (l : List Char)
    (h : ¬ ("</script>".data <:+: l)) :
    ¬ ("</script>".data <:+: replaceU2028 l) := by
  unfold replaceU2028
  exact replAll_preserve2 (by decide) (by decide) (by decide) (by decide)
    (by decide) l.length l (Nat.le_refl _) h

theorem replaceU2028_keeps_comment (l : List Char)
    (h : ¬ ("<!--".data <:+: l)) :
    ¬ ("<!--".data <:+: replaceU2028 l) := by
  unfold replaceU2028
  exact replAll_preserve2 (by decide) (by decide) (by decide) (by decide)
    (by decide) l.length l (Nat.le_refl _) h

theorem replaceU2028_no_char (l : List Char) : ' ' ∉ replaceU2028 l := by
  unfold replaceU2028
  exact replAll_single_char2 rfl (by decide) l.length l (Nat.le_refl _)

theorem replaceU2029_keeps_script (l : List Char)
    (h : ¬ ("</script>".data <:+: l)) :
    ¬ ("</script>".data <:+: replaceU2029 l) := by
  unfold replaceU2029
  exact replAll_preserve2 (by decide) (by decide) (by decide) (by decide)
    (by decide) l.length l (Nat.le_refl _) h

theorem replaceU2029_keeps_comment (l : List Char)
    (h : ¬ ("<!--".data <:+: l)) :
    ¬ ("<!--".data <:+: replaceU2029 l) := by
  unfold replaceU2029
  exact replAll_preserve2 (by decide) (by decide) (by decide) (by decide)
    (by decide) l.length l (Nat.le_refl _) h

theorem replaceU2029_keeps_char (l : List Char) (h : ' ' ∉ l) :
    ' ' ∉ replaceU2029 l := by
  unfold replaceU2029
  intro hmem
  rcases replAll_chars _ _ _ hmem with h1 | h2
  · exact h h1
  · exact absurd h2 (by decide)

theorem replaceU2029_no_char (l : List Char) : ' ' ∉ replaceU2029 l := by
  unfold replaceU2029
  exact replAll_single_char2 rfl (by decide) l.length l (Nat.le_refl _)

/-- C6: `jsonForHtml(undefined)` is exactly `"null"`, and for every input
value the output contains no literal `</script>` substring, no literal `<!--`
substring, and no literal U+2028 or U+2029 character. -/
theorem c6_jsonForHtml_script_safe (v : JsValue) :
    jsonForHtml .undef = "null" ∧
    ¬ ("</script>".data <:+: (jsonForHtml v).data) ∧
    ¬ ("<!--".data <:+: (jsonForHtml v).data) ∧
    ' ' ∉ (jsonForHtml v).data ∧
    ' ' ∉ (jsonForHtml v).data := by
  have hchain : ∀ (m : List Char),
      ¬ ("</script>".data <:+:
          replaceU2029 (replaceU2028 (replaceScriptClose
            (replaceComments m)))) ∧
      ¬ ("<!--".data <:+:
          replaceU2029 (replaceU2028 (replaceScriptClose
            (replaceComments m)))) ∧
      ' ' ∉ replaceU2029 (replaceU2028 (replaceScriptClose
        (replaceComments m))) ∧
      ' ' ∉ replaceU2029 (replaceU2028 (replaceScriptClose
        (replaceComments m))) := by
    intro m
    have h1A := replaceComments_no_comment m
    have h2B := replaceScriptClose_no_script (replaceComments m)
    have h2A := replaceScriptClose_keeps_comment _ h1A
    have h3B := replaceU2028_keeps_script _ h2B
    have h3A := replaceU2028_keeps_comment _ h2A
    have h3c := replaceU2028_no_char (replaceScriptClose (replaceComments m))
    have h4B := replaceU2029_keeps_script _ h3B
    have h4A := replaceU2029_keeps_comment _ h3A
    have h4c := replaceU2029_keeps_char _ h3c
    have h4d := replaceU2029_no_char
      (replaceU2028 (replaceScriptClose (replaceComments m)))
    exact ⟨h4B, h4A, h4c, h4d⟩
  refine ⟨rfl, ?_, ?_, ?_, ?_⟩ <;> cases v <;>
    first
      | decide
      | exact (hchain _).1
      | exact (hchain _).2.1
      | exact (hchain _).2.2.1
      | exact (hchain _).2.2.2

end ApostropheTemplate
